import Mathlib

/-!
FunctionScheduler: a shallow embedding of `src/functionScheduler.cpp`, the class `FunctionScheduler`
with its deadline queue `m_Jobs` (a `std::multimap`), the producer operation
`run_after`, the monitor loop `scheduler`, and `startScheduling` /
`stopScheduling`.

Modelling decisions.

* A `system_time_point` is its tick count, a signed 64-bit integer in the
  source. Tick counts are `Int` values here; the addition of line 27 is
  reduced to the signed 64-bit range by `wrap64`, so a key stored by
  `run_after` is the value the 64-bit addition leaves. The delay of a call is
  given in ticks of the clock. Clock readings supplied by the environment are
  not restricted.
* A job (`std::function<void()>`) is opaque to the scheduler; it is modelled
  by an identifier (`Nat`). Spawning a detached thread for a job is recorded
  in a log.
* `std::multimap` is a list of entries in iteration order: ascending keys,
  entries with equal keys in insertion order (`insert` places a new entry at
  the upper bound of its key, as C++11 requires).
* Every access to `m_Jobs` happens under `m_Mutex`; the mutex is released only
  inside the two condition-variable waits. Calls of `run_after` by other
  threads are therefore interleaved with a pass of the loop body at exactly
  those two places; which calls arrive there, the clock readings and whether
  `stopScheduling` is called are supplied by an `Env` value, one per pass.
-/

/-- Tick count of a `system_time_point`. -/
abbrev Time := Int

/-- Identity of an opaque `std::function<void()>`. -/
abbrev Job := Nat

/-- One element of `m_Jobs`: the deadline (key) and the job. -/
abbrev Entry := Time × Job

/-- Content of the `std::multimap` `m_Jobs` in iteration order. -/
abbrev Jobs := List Entry

/-- The result type of `std::condition_variable::wait_until`. -/
inductive cv_status where
  | no_timeout
  | timeout
deriving DecidableEq, Repr

/-- Contract of `std::condition_variable::wait_until(lock, abs_time)` as the
C++ standard states it: the call returns `timeout` when the absolute time
`abs_time` has expired at the moment it returns, and `no_timeout` otherwise
(notification or spurious wake-up before `abs_time`). `wake` is the clock value
at which the call returns. -/
def wait_until (abs_time wake : Time) : cv_status :=
  if wake < abs_time then cv_status.no_timeout else cv_status.timeout

/-- The data members of the class that the claims are about (lines 87-92).
`m_Mutex`, `m_Condition` and `m_Scheduler` are represented by the structure of
the steps, not by data. -/
structure FunctionScheduler where
  m_IsRunning : Bool
  m_Jobs : Jobs
  m_StartTime : Time
deriving DecidableEq, Repr

/-- One call `run_after(time, job)` by a producer: `now` is the value of
`system_clock::now()` read at line 27. -/
structure Call where
  now : Time
  time : Int
  job : Job
deriving DecidableEq, Repr

/-- What happens around one pass of the loop body of `scheduler`. -/
structure Env where
  /-- Calls of `run_after` that complete before the wait of line 37 returns
  (between two passes, or while that wait has released the mutex). -/
  arrivals : List Call
  /-- The value of `system_clock::now()` read at line 43. -/
  now : Time
  /-- Calls of `run_after` that complete while `wait_until` (line 44) has
  released the mutex, in order. -/
  during : List Call
  /-- The clock value at which `wait_until` (line 44) returns. -/
  wake : Time
  /-- Whether `stopScheduling` is called during this pass, after the loop
  condition of line 33 was evaluated. -/
  stop : Bool
deriving DecidableEq, Repr

/-- Record of one `std::thread(func_it->second)` (line 53): the entry that
was spawned and the clock value at which the timed wait had returned. -/
structure Spawn where
  clock : Time
  key : Time
  job : Job
deriving DecidableEq, Repr

/-- How a run of the monitor loop over a finite list of passes ends. -/
inductive Outcome where
  /-- The loop condition `m_IsRunning` was read false: `scheduler` returned. -/
  | exited
  /-- The wait of line 37 never returns: the queue is empty and no call of
  `run_after` arrives. -/
  | blocked
  /-- The flag is still set after the last described pass. -/
  | running
deriving DecidableEq, Repr

/-- Result of a run of the monitor loop: how it ended, the final state, and
the spawns in the order they were made. -/
structure Run where
  outcome : Outcome
  state : FunctionScheduler
  log : List Spawn
deriving DecidableEq, Repr

namespace FunctionScheduler

/-- The member function `std::multimap::insert(value)`: the new entry goes
before the first entry with a greater key, i.e. after all entries with an
equal key. -/
def insert (e : Entry) : Jobs → Jobs
  | [] => [e]
  | x :: xs => if e.1 < x.1 then e :: x :: xs else x :: insert e xs

/-- The member function `std::multimap::equal_range(k)` as the list of entries
from `lower_bound(k)` (first entry whose key is not less than `k`) up to
`upper_bound(k)` (first entry whose key is greater than `k`). -/
def equal_range (k : Time) (q : Jobs) : Jobs :=
  (q.dropWhile (fun e => decide (e.1 < k))).takeWhile (fun e => !decide (k < e.1))

/-- The call `m_Jobs.erase(m_Jobs.begin())` (line 56): removes the first entry. -/
def erase_begin (q : Jobs) : Jobs :=
  q.tail

/-- The signed 64-bit value of an integer (two's complement): what a 64-bit
tick counter holds after an addition whose exact result is `x`. It is `x`
itself when `x` is representable. -/
def wrap64 (x : Int) : Int :=
  (x + 9223372036854775808) % 18446744073709551616 - 9223372036854775808

/-- Lines 23-29. `run_after(time, job)` with the clock reading `now`: inserts
the entry whose key is `now + time` as line 27 computes it on 64-bit ticks.
The `notify_all` of line 28 has no effect on the data; its effect on a waiting
monitor loop is part of `Env`. -/
def run_after (now : Time) (time : Int) (job : Job) (s : FunctionScheduler) :
    FunctionScheduler :=
  { s with m_Jobs := insert (wrap64 (now + time), job) s.m_Jobs }

/-- The key under which a call of `run_after` stores its job (line 27). -/
def deadline (c : Call) : Time :=
  wrap64 (c.now + c.time)

/-- Lines 72-75. -/
def stopScheduling (s : FunctionScheduler) : FunctionScheduler :=
  { s with m_IsRunning := false }

/-- A sequence of `run_after` calls by producers, performed in order. -/
def arrive (cs : List Call) (s : FunctionScheduler) : FunctionScheduler :=
  cs.foldl (fun st c => run_after c.now c.time c.job st) s

/-- Lines 47-55: the spawns made by the for loop over `equal_range`. -/
def spawn_range (clock : Time) (recent_job_time : Time) (q : Jobs) : List Spawn :=
  (equal_range recent_job_time q).map (fun e => Spawn.mk clock e.1 e.2)

/-- Lines 35-58: one pass of the body of the while loop. The result is `none`
when the wait of line 37 never returns. Otherwise it is the state at the end
of the pass and the spawns made by the pass. -/
def body (ev : Env) (s : FunctionScheduler) : Option (FunctionScheduler × List Spawn) :=
  let s0 := if ev.stop then stopScheduling s else s
  let s1 := arrive ev.arrivals s0
  match s1.m_Jobs with
  | [] => none
  | e :: _ =>
    let recent_job_time := e.1
    if recent_job_time ≠ ev.now then
      let s2 := arrive ev.during s1
      if wait_until recent_job_time ev.wake = cv_status.timeout then
        some ({ s2 with m_Jobs := erase_begin s2.m_Jobs },
              spawn_range ev.wake recent_job_time s2.m_Jobs)
      else
        some (s2, [])
    else
      some (s1, [])

/-- Lines 31-62: the monitor loop, run over the passes described by the list
of environments. -/
def scheduler : List Env → FunctionScheduler → Run
  | [], s => Run.mk (if s.m_IsRunning then Outcome.running else Outcome.exited) s []
  | ev :: rest, s =>
    if s.m_IsRunning then
      match body ev s with
      | none => Run.mk Outcome.blocked (if ev.stop then stopScheduling s else s) []
      | some (s1, spawned) =>
        let r := scheduler rest s1
        Run.mk r.outcome r.state (spawned ++ r.log)
    else
      Run.mk Outcome.exited s []

/-- Lines 64-70: sets the flag, records the start time `now`, and runs the
monitor loop to its end (the thread is joined at once). -/
def startScheduling (now : Time) (envs : List Env) (s : FunctionScheduler) : Run :=
  scheduler envs { s with m_IsRunning := true, m_StartTime := now }

/-- The earliest deadline as line 40 reads it: the key of the first entry. -/
def recent_job_time (q : Jobs) : Option Time :=
  q.head?.map Prod.fst

/-- The ordering invariant of `std::multimap`: keys ascend in iteration order. -/
def Ordered (q : Jobs) : Prop :=
  q.Pairwise (fun a b => a.1 ≤ b.1)

instance (q : Jobs) : Decidable (Ordered q) := by
  unfold Ordered; infer_instance

/-- The queue after a sequence of `run_after` calls, performed in order. -/
def inserts (cs : List Call) (q : Jobs) : Jobs :=
  cs.foldl (fun acc c => insert (deadline c, c.job) acc) q

/-- An environment in which no call of `run_after` arrives. -/
def quiet (ev : Env) : Prop :=
  ev.arrivals = [] ∧ ev.during = []

instance (ev : Env) : Decidable (quiet ev) := by
  unfold quiet; infer_instance

/-- The state at the end of a pass: the flag after a possible `stopScheduling`,
the given queue, the start time untouched. -/
def after (ev : Env) (s : FunctionScheduler) (q : Jobs) : FunctionScheduler :=
  FunctionScheduler.mk (s.m_IsRunning && !ev.stop) q s.m_StartTime

/-- The object as its constructor leaves it (lines 18, 87-92): flag false,
empty queue, start time at the epoch. -/
def init : FunctionScheduler :=
  FunctionScheduler.mk false [] 0

/-- The jobs of the first `n` spawn batches when a queue holding the jobs `js`
loses its first entry after each batch: `js`, then `js.tail`, and so on. -/
def batches : Nat → List Job → List Job
  | 0, _ => []
  | n + 1, js => js ++ batches n js.tail

/-- A pass environment in which the deadline `d` has elapsed at both clock
readings, nothing is inserted and `stopScheduling` is not called. -/
def elapsed (d : Time) (ev : Env) : Prop :=
  quiet ev ∧ ev.stop = false ∧ d < ev.now ∧ d ≤ ev.wake

instance (d : Time) (ev : Env) : Decidable (elapsed d ev) := by
  unfold elapsed; infer_instance

end FunctionScheduler

open FunctionScheduler


/-! ## The 64-bit addition -/

/-- The addition of line 27 at the largest delay: at clock 1 the key wraps to
the least tick count and the entry becomes the first of the queue. -/
theorem FunctionScheduler.run_after_wraps :
    (run_after 1 9223372036854775807 1 (FunctionScheduler.mk false [(5, 0)] 0)).m_Jobs
      = [(-9223372036854775808, 1), (5, 0)] := by
  decide

/-! ## The multimap operations -/

theorem FunctionScheduler.insert_perm (e : Entry) (q : Jobs) :
    (FunctionScheduler.insert e q).Perm (e :: q) := by
  induction q with
  | nil => exact List.Perm.refl _
  | cons x xs ih =>
    unfold FunctionScheduler.insert
    split
    · exact List.Perm.refl _
    · exact (List.Perm.cons x ih).trans (List.Perm.swap e x xs)

theorem FunctionScheduler.mem_insert {e y : Entry} {q : Jobs} :
    y ∈ FunctionScheduler.insert e q ↔ y = e ∨ y ∈ q := by
  rw [(insert_perm e q).mem_iff, List.mem_cons]

theorem FunctionScheduler.insert_sublist (e : Entry) (q : Jobs) :
    q.Sublist (FunctionScheduler.insert e q) := by
  induction q with
  | nil => exact List.nil_sublist _
  | cons x xs ih =>
    unfold FunctionScheduler.insert
    split
    · exact List.sublist_cons_self _ _
    · exact ih.cons₂ x

theorem FunctionScheduler.insert_ordered (e : Entry) {q : Jobs} (h : Ordered q) :
    Ordered (FunctionScheduler.insert e q) := by
  induction q with
  | nil => simp [FunctionScheduler.insert, Ordered]
  | cons x xs ih =>
    unfold Ordered at h ih ⊢
    rw [List.pairwise_cons] at h
    unfold FunctionScheduler.insert
    split
    · rename_i hlt
      refine List.pairwise_cons.2 ⟨?_, List.pairwise_cons.2 h⟩
      intro y hy
      rcases List.mem_cons.1 hy with rfl | hy
      · exact le_of_lt hlt
      · exact le_trans (le_of_lt hlt) (h.1 y hy)
    · rename_i hlt
      refine List.pairwise_cons.2 ⟨?_, ih h.2⟩
      intro y hy
      rcases mem_insert.1 hy with rfl | hy
      · exact not_lt.1 hlt
      · exact h.1 y hy

theorem FunctionScheduler.inserts_cons (c : Call) (cs : List Call) (q : Jobs) :
    inserts (c :: cs) q = inserts cs (FunctionScheduler.insert (deadline c, c.job) q) :=
  rfl

theorem FunctionScheduler.inserts_ordered (cs : List Call) {q : Jobs} (h : Ordered q) :
    Ordered (inserts cs q) := by
  induction cs generalizing q with
  | nil => exact h
  | cons c cs ih => exact ih (insert_ordered _ h)

theorem FunctionScheduler.inserts_sublist (cs : List Call) (q : Jobs) :
    q.Sublist (inserts cs q) := by
  induction cs generalizing q with
  | nil => exact List.Sublist.refl _
  | cons c cs ih => exact (insert_sublist _ q).trans (ih _)

theorem FunctionScheduler.mem_inserts {cs : List Call} {q : Jobs} {y : Entry} :
    y ∈ inserts cs q ↔ y ∈ q ∨ ∃ c ∈ cs, y = (deadline c, c.job) := by
  induction cs generalizing q with
  | nil => simp [inserts]
  | cons c cs ih =>
    rw [inserts_cons, ih, mem_insert]
    simp only [List.mem_cons, exists_eq_or_imp]
    tauto

theorem FunctionScheduler.arrive_eq (cs : List Call) (s : FunctionScheduler) :
    arrive cs s = { s with m_Jobs := inserts cs s.m_Jobs } := by
  induction cs generalizing s with
  | nil => rfl
  | cons c cs ih =>
    show arrive cs (run_after c.now c.time c.job s) = _
    rw [ih]
    rfl

theorem FunctionScheduler.body_eq (ev : Env) (s : FunctionScheduler) :
    body ev s =
      match inserts ev.arrivals s.m_Jobs with
      | [] => none
      | e :: t =>
        if e.1 = ev.now then some (after ev s (e :: t), [])
        else if ev.wake < e.1 then some (after ev s (inserts ev.during (e :: t)), [])
        else some (after ev s (inserts ev.during (e :: t)).tail,
                   spawn_range ev.wake e.1 (inserts ev.during (e :: t))) := by
  unfold body
  simp only [arrive_eq]
  cases hstop : ev.stop <;> cases hq : inserts ev.arrivals s.m_Jobs with
  | nil => simp [stopScheduling, hq]
  | cons e t =>
    by_cases h1 : e.1 = ev.now
    · simp [stopScheduling, hq, h1, after, hstop]
    · by_cases h2 : ev.wake < e.1
      · simp [stopScheduling, hq, h1, h2, after, hstop, wait_until]
      · simp [stopScheduling, hq, h1, h2, after, hstop, wait_until, erase_begin]

theorem FunctionScheduler.takeWhile_eq_filter (k : Time) {q : Jobs} (h : Ordered q)
    (hk : ∀ e ∈ q, k ≤ e.1) :
    q.takeWhile (fun e => !decide (k < e.1)) = q.filter (fun e => decide (e.1 = k)) := by
  induction q with
  | nil => rfl
  | cons x xs ih =>
    unfold Ordered at h ih
    rw [List.pairwise_cons] at h
    have hx : k ≤ x.1 := hk x (List.mem_cons_self _ _)
    by_cases hxk : x.1 = k
    · have h1 : ¬ k < x.1 := hxk ▸ lt_irrefl _
      rw [List.takeWhile_cons, List.filter_cons]
      simp only [h1, hxk, decide_True, decide_False, Bool.not_false, if_true]
      rw [ih h.2 (fun e he => hxk ▸ h.1 e he)]
      simp
    · have h1 : k < x.1 := lt_of_le_of_ne hx (Ne.symm hxk)
      rw [List.takeWhile_cons, List.filter_cons]
      simp only [h1, hxk, decide_True, decide_False, Bool.not_true]
      symm
      simp only [Bool.false_eq_true, if_false]
      rw [List.filter_eq_nil_iff]
      intro e he
      have := h.1 e he
      simp only [decide_eq_true_eq]
      exact ne_of_gt (lt_of_lt_of_le h1 this)

theorem FunctionScheduler.equal_range_eq_filter (k : Time) {q : Jobs} (h : Ordered q) :
    equal_range k q = q.filter (fun e => decide (e.1 = k)) := by
  induction q with
  | nil => rfl
  | cons x xs ih =>
    have h0 := h
    unfold Ordered at h ih
    rw [List.pairwise_cons] at h
    by_cases hxk : x.1 < k
    · have hne : ¬ x.1 = k := ne_of_lt hxk
      have : equal_range k (x :: xs) = equal_range k xs := by
        unfold equal_range
        rw [List.dropWhile_cons]
        simp [hxk]
      rw [this, ih h.2, List.filter_cons]
      simp [hne]
    · have : equal_range k (x :: xs) =
          (x :: xs).takeWhile (fun e => !decide (k < e.1)) := by
        unfold equal_range
        rw [List.dropWhile_cons]
        simp [hxk]
      rw [this]
      apply takeWhile_eq_filter k h0
      intro e he
      rcases List.mem_cons.1 he with rfl | he
      · exact not_lt.1 hxk
      · exact le_trans (not_lt.1 hxk) (h.1 e he)

theorem FunctionScheduler.mem_equal_range {k : Time} {q : Jobs} (h : Ordered q) {e : Entry} :
    e ∈ equal_range k q ↔ e ∈ q ∧ e.1 = k := by
  rw [equal_range_eq_filter k h, List.mem_filter]
  simp

/-! ## One pass of the loop body -/

theorem FunctionScheduler.arrive_jobs (cs : List Call) (s : FunctionScheduler) :
    (arrive cs s).m_Jobs = inserts cs s.m_Jobs := by
  rw [arrive_eq]

theorem FunctionScheduler.ordered_tail {q : Jobs} (h : Ordered q) : Ordered q.tail := by
  cases q with
  | nil => exact h
  | cons x xs => exact (List.pairwise_cons.1 h).2

theorem FunctionScheduler.body_ordered {ev : Env} {s st : FunctionScheduler} {sp : List Spawn}
    (h : Ordered s.m_Jobs) (hb : body ev s = some (st, sp)) : Ordered st.m_Jobs := by
  rw [body_eq] at hb
  have h1 : Ordered (inserts ev.arrivals s.m_Jobs) := inserts_ordered _ h
  cases hq : inserts ev.arrivals s.m_Jobs with
  | nil => simp [hq] at hb
  | cons e t =>
    rw [hq] at h1
    have h2 : Ordered (inserts ev.during (e :: t)) := inserts_ordered _ h1
    simp only [hq] at hb
    split at hb
    · cases hb; exact h1
    · split at hb
      · cases hb; exact h2
      · cases hb; exact ordered_tail h2

/-- Whatever a pass spawns was read from the queue under the deadline read at
line 40, after a timed wait that reported timeout. -/
theorem FunctionScheduler.body_spawned {ev : Env} {s st : FunctionScheduler} {sp : List Spawn}
    (h : Ordered s.m_Jobs) (hb : body ev s = some (st, sp)) (hne : sp ≠ []) :
    ∃ d, recent_job_time (arrive ev.arrivals s).m_Jobs = some d ∧ d ≠ ev.now ∧
      wait_until d ev.wake = cv_status.timeout ∧ d ≤ ev.wake ∧
      ∀ x ∈ sp, x.key = d ∧ x.clock = ev.wake ∧
        (x.key, x.job) ∈ (arrive ev.during (arrive ev.arrivals s)).m_Jobs := by
  rw [body_eq] at hb
  have h1 : Ordered (inserts ev.arrivals s.m_Jobs) := inserts_ordered _ h
  simp only [arrive_jobs]
  cases hq : inserts ev.arrivals s.m_Jobs with
  | nil => simp [hq] at hb
  | cons e t =>
    rw [hq] at h1
    have h2 : Ordered (inserts ev.during (e :: t)) := inserts_ordered _ h1
    simp only [hq] at hb
    split at hb
    · cases hb; exact absurd rfl hne
    · rename_i hnow
      split at hb
      · cases hb; exact absurd rfl hne
      · rename_i hwake
        cases hb
        refine ⟨e.1, rfl, hnow, ?_, not_lt.1 hwake, ?_⟩
        · simp [wait_until, hwake]
        · intro x hx
          unfold spawn_range at hx
          obtain ⟨y, hy, rfl⟩ := List.mem_map.1 hx
          have := (mem_equal_range h2).1 hy
          exact ⟨this.2, rfl, this.1⟩

theorem FunctionScheduler.scheduler_log_forall (P : Spawn → Prop)
    (hP : ∀ (ev : Env) (s st : FunctionScheduler) (sp : List Spawn),
      Ordered s.m_Jobs → body ev s = some (st, sp) → ∀ x ∈ sp, P x) :
    ∀ (envs : List Env) (s : FunctionScheduler), Ordered s.m_Jobs →
      ∀ x ∈ (scheduler envs s).log, P x := by
  intro envs
  induction envs with
  | nil => intro s _ x hx; simp [scheduler] at hx
  | cons ev rest ih =>
    intro s hs x hx
    unfold scheduler at hx
    split at hx
    · cases hb : body ev s with
      | none => simp [hb] at hx
      | some r =>
        obtain ⟨st, sp⟩ := r
        simp only [hb, List.mem_append] at hx
        rcases hx with hx | hx
        · exact hP ev s st sp hs hb x hx
        · exact ih st (body_ordered hs hb) x hx
    · simp at hx

theorem FunctionScheduler.body_quiet_eq {ev : Env} (hq : quiet ev) (s : FunctionScheduler) :
    body ev s =
      match s.m_Jobs with
      | [] => none
      | e :: t =>
        if e.1 = ev.now then some (after ev s (e :: t), [])
        else if ev.wake < e.1 then some (after ev s (e :: t), [])
        else some (after ev s t, spawn_range ev.wake e.1 (e :: t)) := by
  rw [body_eq, hq.1, hq.2]
  cases s.m_Jobs <;> rfl

theorem FunctionScheduler.body_quiet_jobs {ev : Env} (hq : quiet ev) {s st : FunctionScheduler}
    {sp : List Spawn} (hb : body ev s = some (st, sp)) :
    (st.m_Jobs = s.m_Jobs ∨ st.m_Jobs = s.m_Jobs.tail) ∧
      (arrive ev.during (arrive ev.arrivals s)).m_Jobs = s.m_Jobs := by
  rw [body_quiet_eq hq] at hb
  rw [hq.1, hq.2]
  refine ⟨?_, rfl⟩
  cases hj : s.m_Jobs with
  | nil => simp [hj] at hb
  | cons e t =>
    simp only [hj] at hb
    split at hb
    · cases hb; exact Or.inl rfl
    · split at hb
      · cases hb; exact Or.inl rfl
      · cases hb; exact Or.inr rfl

theorem FunctionScheduler.ordered_head_le {q : Jobs} (h : Ordered q) {d : Time}
    (hd : recent_job_time q = some d) : ∀ e ∈ q, d ≤ e.1 := by
  cases q with
  | nil => simp [recent_job_time] at hd
  | cons x xs =>
    simp only [recent_job_time, List.head?_cons, Option.map_some', Option.some.injEq] at hd
    subst hd
    intro e he
    rcases List.mem_cons.1 he with rfl | he
    · exact le_refl _
    · exact (List.pairwise_cons.1 h).1 e he

theorem FunctionScheduler.scheduler_state_ordered (envs : List Env) {s : FunctionScheduler}
    (hs : Ordered s.m_Jobs) : Ordered (scheduler envs s).state.m_Jobs := by
  induction envs generalizing s with
  | nil => exact hs
  | cons ev rest ih =>
    unfold scheduler
    split
    · cases hb : body ev s with
      | none =>
        show Ordered (if ev.stop then stopScheduling s else s).m_Jobs
        split <;> exact hs
      | some r =>
        obtain ⟨st, sp⟩ := r
        exact ih (body_ordered hs hb)
    · exact hs

theorem FunctionScheduler.quiet_run (envs : List Env) {s : FunctionScheduler}
    (hs : Ordered s.m_Jobs) (hq : ∀ ev ∈ envs, quiet ev) :
    ((scheduler envs s).log.map Spawn.key).Pairwise (fun a b => a ≤ b) ∧
      ∀ x ∈ (scheduler envs s).log, (x.key, x.job) ∈ s.m_Jobs := by
  induction envs generalizing s with
  | nil => simp [scheduler]
  | cons ev rest ih =>
    have hev : quiet ev := hq ev (List.mem_cons_self _ _)
    have hrest : ∀ e ∈ rest, quiet e := fun e he => hq e (List.mem_cons_of_mem _ he)
    unfold scheduler
    split
    · cases hb : body ev s with
      | none => simp
      | some r =>
        obtain ⟨st, sp⟩ := r
        have hst := body_ordered hs hb
        obtain ⟨ih1, ih2⟩ := ih hst hrest
        obtain ⟨hj, hsame⟩ := body_quiet_jobs hev hb
        have hsub : ∀ e ∈ st.m_Jobs, e ∈ s.m_Jobs := by
          intro e he
          rcases hj with hj | hj
          · rw [hj] at he; exact he
          · rw [hj] at he; exact List.mem_of_mem_tail he
        have hsp : ∀ x ∈ sp, recent_job_time s.m_Jobs = some x.key ∧
            (x.key, x.job) ∈ s.m_Jobs := by
          intro x hx
          obtain ⟨d, h1, _, _, _, h5⟩ := body_spawned hs hb (List.ne_nil_of_mem hx)
          rw [hev.1] at h1
          have := h5 x hx
          rw [hsame] at this
          exact ⟨this.1 ▸ h1, this.2.2⟩
        constructor
        · show (List.map Spawn.key (sp ++ (scheduler rest st).log)).Pairwise _
          rw [List.map_append, List.pairwise_append]
          refine ⟨?_, ih1, ?_⟩
          · rw [List.pairwise_map]
            apply List.pairwise_of_forall_mem_list
            intro a ha b hb2
            have h1 := (hsp a ha).1
            have h2 := (hsp b hb2).1
            rw [h1] at h2
            exact le_of_eq (Option.some.inj h2)
          · intro a ha b hb2
            obtain ⟨x, hx, rfl⟩ := List.mem_map.1 ha
            obtain ⟨y, hy, rfl⟩ := List.mem_map.1 hb2
            exact ordered_head_le hs (hsp x hx).1 _ (hsub _ (ih2 y hy))
        · intro x hx
          rcases List.mem_append.1 hx with hx | hx
          · exact (hsp x hx).2
          · exact hsub _ (ih2 x hx)
    · simp

/-! ## Entries that share one deadline -/

theorem FunctionScheduler.insert_same {k : Time} (j : Job) {q : Jobs}
    (h : ∀ e ∈ q, e.1 ≤ k) : FunctionScheduler.insert (k, j) q = q ++ [(k, j)] := by
  induction q with
  | nil => rfl
  | cons x xs ih =>
    unfold FunctionScheduler.insert
    have hx : ¬ k < x.1 := not_lt.2 (h x (List.mem_cons_self _ _))
    simp only [hx, if_false, List.cons_append]
    rw [ih (fun e he => h e (List.mem_cons_of_mem _ he))]

theorem FunctionScheduler.inserts_same {d : Time} (cs : List Call) {q : Jobs}
    (hq : ∀ e ∈ q, e.1 = d) (hc : ∀ c ∈ cs, deadline c = d) :
    inserts cs q = q ++ cs.map (fun c => (d, c.job)) := by
  induction cs generalizing q with
  | nil => simp [inserts]
  | cons c cs ih =>
    have hcd : deadline c = d := hc c (List.mem_cons_self _ _)
    rw [inserts_cons, hcd, insert_same c.job (fun e he => le_of_eq (hq e he))]
    rw [ih ?_ (fun c2 h2 => hc c2 (List.mem_cons_of_mem _ h2))]
    · simp
    · intro e he
      rcases List.mem_append.1 he with he | he
      · exact hq e he
      · simp only [List.mem_singleton] at he
        rw [he]

theorem FunctionScheduler.equal_range_all {d : Time} {q : Jobs} (hq : ∀ e ∈ q, e.1 = d) :
    equal_range d q = q := by
  have hord : Ordered q := by
    apply List.pairwise_of_forall_mem_list
    intro a ha b hb
    rw [hq a ha, hq b hb]
  rw [equal_range_eq_filter d hord, List.filter_eq_self]
  intro e he
  simp [hq e he]

theorem FunctionScheduler.run_same_deadline (d : Time) (t : Time) (js : List Job)
    (envs : List Env) (hlen : envs.length ≤ js.length) (he : ∀ ev ∈ envs, elapsed d ev) :
    (scheduler envs (FunctionScheduler.mk true (js.map (fun j => (d, j))) t)).state.m_Jobs
        = (js.drop envs.length).map (fun j => (d, j)) ∧
    (scheduler envs (FunctionScheduler.mk true (js.map (fun j => (d, j))) t)).log.map Spawn.job
        = batches envs.length js ∧
    (scheduler envs (FunctionScheduler.mk true (js.map (fun j => (d, j))) t)).outcome
        = Outcome.running := by
  induction envs generalizing js with
  | nil => simp [scheduler, batches]
  | cons ev rest ih =>
    obtain ⟨hquiet, hstop, hnow, hwake⟩ := he ev (List.mem_cons_self _ _)
    cases js with
    | nil => simp at hlen
    | cons j js =>
      have hb : body ev (FunctionScheduler.mk true ((j :: js).map (fun j => (d, j))) t)
          = some (FunctionScheduler.mk true (js.map (fun j => (d, j))) t,
              ((j :: js).map (fun j => (d, j))).map (fun e => Spawn.mk ev.wake e.1 e.2)) := by
        rw [body_quiet_eq hquiet]
        have h1 : ¬ d = ev.now := ne_of_lt hnow
        have h2 : ¬ ev.wake < d := not_lt.2 hwake
        have h3 : equal_range d ((d, j) :: js.map (fun j => (d, j)))
            = (d, j) :: js.map (fun j => (d, j)) := by
          apply equal_range_all
          intro e he
          rcases List.mem_cons.1 he with rfl | he
          · rfl
          · obtain ⟨_, _, rfl⟩ := List.mem_map.1 he
            rfl
        simp only [List.map_cons, h1, h2, if_false, after, hstop, spawn_range, h3]
        simp
      have hlen2 : rest.length ≤ js.length := by simpa using hlen
      obtain ⟨ih1, ih2, ih3⟩ := ih js hlen2 (fun e h => he e (List.mem_cons_of_mem _ h))
      unfold scheduler
      simp only [if_true, hb]
      refine ⟨?_, ?_, ih3⟩
      · simpa using ih1
      · simp only [List.map_append, List.map_map, List.length_cons, batches, List.tail_cons]
        rw [ih2]
        congr 1
        simp [Function.comp_def]

theorem FunctionScheduler.batches_subset (n : Nat) (js : List Job) :
    ∀ a ∈ batches n js, a ∈ js := by
  induction n generalizing js with
  | zero => intro a ha; simp [batches] at ha
  | succ n ih =>
    intro a ha
    simp only [batches, List.mem_append] at ha
    rcases ha with ha | ha
    · exact ha
    · exact List.mem_of_mem_tail (ih _ a ha)

theorem FunctionScheduler.batches_length (js : List Job) :
    (batches js.length js).length = js.length * (js.length + 1) / 2 := by
  have key : ∀ js : List Job, 2 * (batches js.length js).length = js.length * (js.length + 1) := by
    intro js
    induction js with
    | nil => rfl
    | cons j js ih =>
      simp only [List.length_cons, batches, List.length_append, List.tail_cons]
      have : 2 * (js.length + 1 + (batches js.length js).length)
          = 2 * (js.length + 1) + 2 * (batches js.length js).length := by ring
      rw [this, ih]
      ring
  have := key js
  omega

theorem FunctionScheduler.batches_count (js : List Job) (hnd : js.Nodup) (i : Nat)
    (hi : i < js.length) : (batches js.length js).count (js.get ⟨i, hi⟩) = i + 1 := by
  induction js generalizing i with
  | nil => simp at hi
  | cons j js ih =>
    rw [List.nodup_cons] at hnd
    simp only [List.length_cons, batches, List.tail_cons, List.count_append]
    cases i with
    | zero =>
      have h0 : (batches js.length js).count j = 0 :=
        List.count_eq_zero.2 (fun h => hnd.1 (batches_subset _ _ _ h))
      simp only [List.get_eq_getElem, List.getElem_cons_zero, List.count_cons_self, h0]
      rw [List.count_eq_zero.2 hnd.1]
    | succ i =>
      have hi2 : i < js.length := by simpa using hi
      have hmem : js.get ⟨i, hi2⟩ ∈ js := List.get_mem _ _ _
      have hne : j ≠ js.get ⟨i, hi2⟩ := fun h => hnd.1 (h ▸ hmem)
      have h1 := ih hnd.2 i hi2
      simp only [List.get_eq_getElem, List.getElem_cons_succ] at h1 ⊢
      have hne2 : js[i] ≠ j := fun h => hne (by simpa using h.symm)
      rw [h1, List.count_cons_of_ne hne2]
      have : js.count js[i] = 1 := List.count_eq_one_of_mem hnd.2 (by simp)
      omega

theorem FunctionScheduler.start_same_deadline {d : Time} (calls : List Call) (t0 : Time)
    (envs : List Env) (hc : ∀ c ∈ calls, deadline c = d) :
    startScheduling t0 envs (arrive calls init)
      = scheduler envs
          (FunctionScheduler.mk true ((calls.map Call.job).map (fun j => (d, j))) t0) := by
  unfold startScheduling
  rw [arrive_eq]
  have : inserts calls init.m_Jobs = (calls.map Call.job).map (fun j => (d, j)) := by
    rw [inserts_same calls (q := init.m_Jobs) (d := d) (by intro e he; simp [init] at he) hc]
    simp [init, Function.comp_def]
  simp only [this]

theorem FunctionScheduler.body_firing {ev : Env} {s : FunctionScheduler} {k : Time}
    (hk : recent_job_time (arrive ev.arrivals s).m_Jobs = some k) (hnow : k ≠ ev.now)
    (hw : wait_until k ev.wake = cv_status.timeout) :
    body ev s = some
      (after ev s (erase_begin (arrive ev.during (arrive ev.arrivals s)).m_Jobs),
       spawn_range ev.wake k (arrive ev.during (arrive ev.arrivals s)).m_Jobs) := by
  rw [body_eq]
  simp only [arrive_jobs] at hk ⊢
  cases hq : inserts ev.arrivals s.m_Jobs with
  | nil => simp [hq, recent_job_time] at hk
  | cons e t =>
    simp only [hq, recent_job_time, List.head?_cons, Option.map_some', Option.some.injEq] at hk
    subst hk
    have h2 : ¬ ev.wake < e.1 := by
      intro h
      simp [wait_until, h] at hw
    simp only [hnow, h2, if_false, erase_begin]

/-! ## A pending entry and the spawns of later keys -/

theorem FunctionScheduler.body_keeps_or_spawns {ev : Env} {s st : FunctionScheduler}
    {sp : List Spawn} (hs : Ordered s.m_Jobs) {k : Time} {j : Job}
    (hmem : (k, j) ∈ s.m_Jobs) (hb : body ev s = some (st, sp)) :
    (∀ x ∈ sp, x.key ≤ k) ∧ ((k, j) ∈ st.m_Jobs ∨ ∃ y ∈ sp, y.key = k ∧ y.job = j) := by
  rw [body_eq] at hb
  have h1 : Ordered (inserts ev.arrivals s.m_Jobs) := inserts_ordered _ hs
  have hm1 : (k, j) ∈ inserts ev.arrivals s.m_Jobs := mem_inserts.2 (Or.inl hmem)
  cases hq : inserts ev.arrivals s.m_Jobs with
  | nil => simp [hq] at hb
  | cons e t =>
    rw [hq] at h1 hm1
    have hek : e.1 ≤ k := ordered_head_le h1 rfl _ hm1
    have h2 : Ordered (inserts ev.during (e :: t)) := inserts_ordered _ h1
    have hm2 : (k, j) ∈ inserts ev.during (e :: t) := mem_inserts.2 (Or.inl hm1)
    have he2 : e ∈ inserts ev.during (e :: t) :=
      mem_inserts.2 (Or.inl (List.mem_cons_self _ _))
    simp only [hq] at hb
    split at hb
    · cases hb
      exact ⟨fun x hx => by simp at hx, Or.inl hm1⟩
    · split at hb
      · cases hb
        exact ⟨fun x hx => by simp at hx, Or.inl hm2⟩
      · cases hb
        constructor
        · intro x hx
          unfold spawn_range at hx
          obtain ⟨y, hy, rfl⟩ := List.mem_map.1 hx
          have := ((mem_equal_range h2).1 hy).2
          show y.1 ≤ k
          rw [this]
          exact hek
        · cases hq2 : inserts ev.during (e :: t) with
          | nil => rw [hq2] at hm2; simp at hm2
          | cons h T =>
            rw [hq2] at hm2 he2 h2
            rcases List.mem_cons.1 hm2 with hh | hT
            · right
              have hle : h.1 ≤ e.1 := ordered_head_le h2 rfl _ he2
              have hkey : k = e.1 := by
                have : h.1 = k := by rw [← hh]
                exact le_antisymm (this ▸ hle) hek
              refine ⟨Spawn.mk ev.wake k j, ?_, rfl, rfl⟩
              unfold spawn_range
              refine List.mem_map.2 ⟨(k, j), ?_, rfl⟩
              rw [mem_equal_range h2]
              exact ⟨hm2, hkey⟩
            · left
              exact hT

theorem FunctionScheduler.fires_before_later (envs : List Env) {s : FunctionScheduler}
    (hs : Ordered s.m_Jobs) {k : Time} {j : Job} (hmem : (k, j) ∈ s.m_Jobs) :
    ∀ (l1 l2 : List Spawn) (x : Spawn), (scheduler envs s).log = l1 ++ x :: l2 →
      k < x.key → ∃ y ∈ l1, y.key = k ∧ y.job = j := by
  induction envs generalizing s with
  | nil =>
    intro l1 l2 x hlog
    simp [scheduler] at hlog
  | cons ev rest ih =>
    intro l1 l2 x hlog hx
    unfold scheduler at hlog
    split at hlog
    · cases hb : body ev s with
      | none => simp [hb] at hlog
      | some r =>
        obtain ⟨st, sp⟩ := r
        simp only [hb] at hlog
        obtain ⟨hkeys, hcase⟩ := body_keeps_or_spawns hs hmem hb
        have hsplit : ∃ a, l1 = sp ++ a ∧ (scheduler rest st).log = a ++ x :: l2 := by
          rcases List.append_eq_append_iff.1 hlog with ⟨a, h1, h2⟩ | ⟨c, h1, h2⟩
          · exact ⟨a, h1, h2⟩
          · cases c with
            | nil =>
              refine ⟨[], ?_, ?_⟩
              · simpa using h1.symm
              · simpa using h2.symm
            | cons c0 cs =>
              simp only [List.cons_append, List.cons.injEq] at h2
              have hxin : x ∈ sp := by
                rw [h1, h2.1]
                simp
              exact absurd (hkeys x hxin) (not_le.2 hx)
        obtain ⟨a, rfl, hrest⟩ := hsplit
        rcases hcase with hin | ⟨y, hy, hyk⟩
        · obtain ⟨y, hy, hyk⟩ := ih (body_ordered hs hb) hin a l2 x hrest hx
          exact ⟨y, List.mem_append_right _ hy, hyk⟩
        · exact ⟨y, List.mem_append_left _ hy, hyk⟩
    · simp at hlog

/-! ## The claims -/

namespace FunctionScheduler

/-- C4 (no job fires early). In every pass from a state whose queue is
ordered, if anything is spawned then the deadline `d` read at line 40 differs
from the clock read at line 43, the timed wait on `d` reported timeout, the
clock had reached `d` when the wait returned, and every spawn of the pass has
key `d`. Hence in every run every logged spawn has a key not after the clock
value at which it was made. -/
theorem no_job_fires_early (envs : List Env) (s : FunctionScheduler)
    (hs : Ordered s.m_Jobs) :
    (∀ (ev : Env) (st : FunctionScheduler) (sp : List Spawn),
      body ev s = some (st, sp) → sp ≠ [] →
        ∃ d, recent_job_time (arrive ev.arrivals s).m_Jobs = some d ∧
          wait_until d ev.wake = cv_status.timeout ∧ d ≤ ev.wake ∧
          ∀ x ∈ sp, x.key = d ∧ x.clock = ev.wake) ∧
    ∀ x ∈ (scheduler envs s).log, x.key ≤ x.clock := by
  constructor
  · intro ev st sp hb hne
    obtain ⟨d, h1, _, h3, h4, h5⟩ := body_spawned hs hb hne
    exact ⟨d, h1, h3, h4, fun x hx => ⟨(h5 x hx).1, (h5 x hx).2.1⟩⟩
  · refine scheduler_log_forall (fun x => x.key ≤ x.clock) ?_ envs s hs
    intro ev s0 st sp h0 hb x hx
    have hne : sp ≠ [] := List.ne_nil_of_mem hx
    obtain ⟨d, _, _, _, h4, h5⟩ := body_spawned h0 hb hne
    have := h5 x hx
    show x.key ≤ x.clock
    rw [this.1, this.2.1]
    exact h4

/-- C3 (firing order). The queue is built by any sequence of `run_after`
calls on a fresh object, then the monitor loop is started and runs over
passes during which no insertion arrives. Then the keys of the logged spawns
are in non-decreasing order over the whole run, and in every pass of the run
(the pass `ev` that follows the passes `pre`) every spawned entry has the key
that is first in the queue at that moment, which is the least key of the
queue. -/
theorem firing_order (calls : List Call) (t0 : Time) (envs : List Env)
    (hq : ∀ ev ∈ envs, quiet ev) :
    ((startScheduling t0 envs (arrive calls init)).log.map Spawn.key).Pairwise
        (fun a b => a ≤ b) ∧
    ∀ (pre post : List Env) (ev : Env), envs = pre ++ ev :: post →
      ∀ (st : FunctionScheduler) (sp : List Spawn),
        body ev (startScheduling t0 pre (arrive calls init)).state = some (st, sp) →
        ∀ x ∈ sp,
          recent_job_time (startScheduling t0 pre (arrive calls init)).state.m_Jobs
              = some x.key ∧
          ∀ e ∈ (startScheduling t0 pre (arrive calls init)).state.m_Jobs, x.key ≤ e.1 := by
  have h0 : ∀ t : Time, Ordered
      (FunctionScheduler.mk true (arrive calls init).m_Jobs t).m_Jobs := by
    intro t
    show Ordered (arrive calls init).m_Jobs
    rw [arrive_jobs]
    exact inserts_ordered calls List.Pairwise.nil
  constructor
  · exact (quiet_run envs (h0 t0) hq).1
  · intro pre post ev henv st sp hb x hx
    have hev : quiet ev := hq ev (by rw [henv]; simp)
    have hord : Ordered (startScheduling t0 pre (arrive calls init)).state.m_Jobs :=
      scheduler_state_ordered pre (h0 t0)
    obtain ⟨d, h1, _, _, _, h5⟩ := body_spawned hord hb (List.ne_nil_of_mem hx)
    rw [hev.1] at h1
    have hk : x.key = d := (h5 x hx).1
    rw [hk]
    exact ⟨h1, ordered_head_le hord h1⟩

/-- Instance of `firing_order`: three calls (two with one deadline), then
three passes without insertions. -/
theorem firing_order_witness :
    (∀ ev ∈ [Env.mk [] 0 [] 5 false, Env.mk [] 6 [] 6 false, Env.mk [] 7 [] 9 false],
        quiet ev) ∧
    (((startScheduling 0
        [Env.mk [] 0 [] 5 false, Env.mk [] 6 [] 6 false, Env.mk [] 7 [] 9 false]
        (arrive [Call.mk 0 9 0, Call.mk 0 5 1, Call.mk 1 4 2] init)).log.map
          Spawn.key).Pairwise (fun a b => a ≤ b)) :=
  ⟨by decide,
   (firing_order [Call.mk 0 9 0, Call.mk 0 5 1, Call.mk 1 4 2] 0
      [Env.mk [] 0 [] 5 false, Env.mk [] 6 [] 6 false, Env.mk [] 7 [] 9 false]
      (by decide)).1⟩

/-- C10 (one entry removed per firing pass). First, in every pass that reads
the deadline `k` at line 40, sees a different clock value at line 43 and whose
timed wait reports timeout, the spawns are the `equal_range` of `k` in the
queue as it is after the wait, the queue loses exactly its first entry, and
when the queue is ordered every entry whose key is `k` is spawned. Second,
when the queue is built from `calls.length` calls of `run_after` that all give
the deadline `d`, and the loop then runs `calls.length` passes in each of which
`d` has elapsed and nothing is inserted: the queue is empty at the end and has
`calls.length - n` entries after `n` passes, the jobs are spawned in the
batches `js`, `js.tail`, ..., the log has `k * (k + 1) / 2` spawns, and when the
jobs are pairwise different the job of the call at index `i` (counted from 0)
is spawned exactly `i + 1` times. -/
theorem one_entry_removed_per_firing (d : Time) (calls : List Call) (t0 : Time)
    (envs : List Env) (hc : ∀ c ∈ calls, deadline c = d)
    (hlen : envs.length = calls.length) (he : ∀ ev ∈ envs, elapsed d ev) :
    (∀ (ev : Env) (s : FunctionScheduler) (k : Time),
      recent_job_time (arrive ev.arrivals s).m_Jobs = some k → k ≠ ev.now →
      wait_until k ev.wake = cv_status.timeout →
        body ev s = some
          (after ev s (arrive ev.during (arrive ev.arrivals s)).m_Jobs.tail,
           (equal_range k (arrive ev.during (arrive ev.arrivals s)).m_Jobs).map
              (fun e => Spawn.mk ev.wake e.1 e.2)) ∧
        (arrive ev.during (arrive ev.arrivals s)).m_Jobs.tail.length + 1
          = (arrive ev.during (arrive ev.arrivals s)).m_Jobs.length ∧
        (Ordered s.m_Jobs →
          ∀ e ∈ (arrive ev.during (arrive ev.arrivals s)).m_Jobs, e.1 = k →
            e ∈ equal_range k (arrive ev.during (arrive ev.arrivals s)).m_Jobs)) ∧
    (startScheduling t0 envs (arrive calls init)).state.m_Jobs = [] ∧
    (∀ n ≤ calls.length,
      (startScheduling t0 (envs.take n) (arrive calls init)).state.m_Jobs.length
        = calls.length - n) ∧
    (startScheduling t0 envs (arrive calls init)).log.map Spawn.job
      = batches calls.length (calls.map Call.job) ∧
    (startScheduling t0 envs (arrive calls init)).log.length
      = calls.length * (calls.length + 1) / 2 ∧
    ((calls.map Call.job).Nodup → ∀ (i : Nat) (hi : i < calls.length),
      ((startScheduling t0 envs (arrive calls init)).log.map Spawn.job).count
        (calls.get ⟨i, hi⟩).job = i + 1) := by
  have hjl : (calls.map Call.job).length = calls.length := List.length_map _ _
  have hrun := run_same_deadline d t0 (calls.map Call.job) envs (by rw [hjl, hlen]) he
  rw [← start_same_deadline calls t0 envs hc] at hrun
  have hlog : (startScheduling t0 envs (arrive calls init)).log.map Spawn.job
      = batches calls.length (calls.map Call.job) := by
    rw [hrun.2.1, hlen]
  refine ⟨?_, ?_, ?_, hlog, ?_, ?_⟩
  · intro ev s k hk hnow hw
    refine ⟨body_firing hk hnow hw, ?_, ?_⟩
    · have hne : (arrive ev.during (arrive ev.arrivals s)).m_Jobs ≠ [] := by
        rw [arrive_jobs]
        intro h
        have hsub := inserts_sublist ev.during (arrive ev.arrivals s).m_Jobs
        rw [h, List.sublist_nil] at hsub
        simp [hsub, recent_job_time] at hk
      cases hq : (arrive ev.during (arrive ev.arrivals s)).m_Jobs with
      | nil => exact absurd hq hne
      | cons x xs => simp
    · intro hs e hmem hkey
      have hord : Ordered (arrive ev.during (arrive ev.arrivals s)).m_Jobs := by
        rw [arrive_jobs, arrive_jobs]
        exact inserts_ordered _ (inserts_ordered _ hs)
      exact (mem_equal_range hord).2 ⟨hmem, hkey⟩
  · rw [hrun.1, hlen, ← hjl, List.drop_length]
    rfl
  · intro n hn
    have hrun2 := run_same_deadline d t0 (calls.map Call.job) (envs.take n)
      (by rw [hjl, List.length_take]; omega)
      (fun ev h => he ev (List.mem_of_mem_take h))
    rw [← start_same_deadline calls t0 (envs.take n) hc] at hrun2
    rw [hrun2.1, List.length_map, List.length_drop, List.length_take, hjl]
    omega
  · have := congrArg List.length hlog
    rw [List.length_map] at this
    rw [this, ← hjl, batches_length]
  · intro hnd i hi
    rw [hlog]
    have := batches_count (calls.map Call.job) hnd i (by rw [hjl]; exact hi)
    simpa using this

/-- C7 (pre-emption by an earlier insertion). A pass reads the deadline `d`
at line 40, enters the timed wait (the clock read at line 43 differs from `d`)
and the wait reports no-timeout. Then (1) the pass spawns nothing and removes
nothing: the queue at its end is the queue with the insertions made during the
wait; (2) the deadline the next pass reads is the least key of the queue it
finds; (3) when a call inserted during the wait has a deadline earlier than
`d` and not later than the other insertions of that wait, this deadline is
what the next pass reads if nothing else arrives; (4) for a call inserted
during the wait with a deadline earlier than `d`, in every continuation of the
run, whatever arrives later, every spawn of an entry with a later key (so every
spawn of the previously awaited job, whose key is `d`) comes after a spawn of
the inserted job. -/
theorem preemption_by_earlier_insertion (ev : Env) (s : FunctionScheduler) (d : Time)
    (hs : Ordered s.m_Jobs)
    (hd : recent_job_time (arrive ev.arrivals s).m_Jobs = some d)
    (hnow : d ≠ ev.now)
    (hw : wait_until d ev.wake = cv_status.no_timeout) :
    body ev s = some (after ev s (arrive ev.during (arrive ev.arrivals s)).m_Jobs, []) ∧
    (∀ (ev2 : Env) (k : Time),
      recent_job_time (arrive ev2.arrivals
          (after ev s (arrive ev.during (arrive ev.arrivals s)).m_Jobs)).m_Jobs = some k →
      ∀ e ∈ (arrive ev2.arrivals
          (after ev s (arrive ev.during (arrive ev.arrivals s)).m_Jobs)).m_Jobs, k ≤ e.1) ∧
    (∀ c ∈ ev.during, deadline c < d →
      (∀ c2 ∈ ev.during, deadline c ≤ deadline c2) →
      recent_job_time (after ev s (arrive ev.during (arrive ev.arrivals s)).m_Jobs).m_Jobs
        = some (deadline c)) ∧
    (∀ c ∈ ev.during, deadline c < d →
      ∀ (envs : List Env) (l1 l2 : List Spawn) (x : Spawn),
        (scheduler envs (after ev s (arrive ev.during (arrive ev.arrivals s)).m_Jobs)).log
          = l1 ++ x :: l2 →
        deadline c < x.key →
        ∃ y ∈ l1, y.key = deadline c ∧ y.job = c.job) := by
  have h1 : Ordered (arrive ev.arrivals s).m_Jobs := by
    rw [arrive_jobs]; exact inserts_ordered _ hs
  have h2 : Ordered (arrive ev.during (arrive ev.arrivals s)).m_Jobs := by
    rw [arrive_jobs]; exact inserts_ordered _ h1
  have hwake : ev.wake < d := by
    by_contra h
    simp [wait_until, h] at hw
  refine ⟨?_, ?_, ?_, ?_⟩
  · rw [body_eq]
    simp only [arrive_jobs] at hd ⊢
    cases hq : inserts ev.arrivals s.m_Jobs with
    | nil => simp [hq, recent_job_time] at hd
    | cons e t =>
      simp only [hq, recent_job_time, List.head?_cons, Option.map_some',
        Option.some.injEq] at hd
      subst hd
      simp only [hnow, hwake, if_false, if_true]
  · intro ev2 k hk
    apply ordered_head_le _ hk
    rw [arrive_jobs]
    exact inserts_ordered _ h2
  · intro c hc hlt hmin
    show recent_job_time (arrive ev.during (arrive ev.arrivals s)).m_Jobs = _
    have hmem : (deadline c, c.job) ∈ (arrive ev.during (arrive ev.arrivals s)).m_Jobs := by
      rw [arrive_jobs]
      exact mem_inserts.2 (Or.inr ⟨c, hc, rfl⟩)
    cases hq2 : (arrive ev.during (arrive ev.arrivals s)).m_Jobs with
    | nil => rw [hq2] at hmem; simp at hmem
    | cons h T =>
      rw [hq2] at hmem h2
      have hle : h.1 ≤ deadline c := ordered_head_le h2 rfl _ hmem
      have hin : h ∈ (arrive ev.during (arrive ev.arrivals s)).m_Jobs := by
        rw [hq2]; exact List.mem_cons_self _ _
      rw [arrive_jobs] at hin
      simp only [recent_job_time, List.head?_cons, Option.map_some', Option.some.injEq]
      rcases mem_inserts.1 hin with hold | ⟨c2, hc2, hc2eq⟩
      · have := ordered_head_le h1 hd h hold
        exact absurd (lt_of_le_of_lt (le_trans this hle) hlt) (lt_irrefl _)
      · have : h.1 = deadline c2 := by rw [hc2eq]
        exact le_antisymm hle (this ▸ hmin c2 hc2)
  · intro c hc _ envs l1 l2 x hlog hx
    have hmem : (deadline c, c.job) ∈
        (after ev s (arrive ev.during (arrive ev.arrivals s)).m_Jobs).m_Jobs := by
      show _ ∈ (arrive ev.during (arrive ev.arrivals s)).m_Jobs
      rw [arrive_jobs]
      exact mem_inserts.2 (Or.inr ⟨c, hc, rfl⟩)
    have h3 : Ordered
        (after ev s (arrive ev.during (arrive ev.arrivals s)).m_Jobs).m_Jobs := h2
    exact fires_before_later envs h3 hmem l1 l2 x hlog hx

/-- Instance of `no_job_fires_early`: an ordered queue of two entries and two
passes, the second of which returns from its wait after the deadline. -/
theorem no_job_fires_early_witness :
    Ordered (FunctionScheduler.mk true [(5, 1), (9, 0)] 0).m_Jobs ∧
    ∀ x ∈ (scheduler [Env.mk [] 0 [] 5 false, Env.mk [] 6 [] 12 false]
        (FunctionScheduler.mk true [(5, 1), (9, 0)] 0)).log, x.key ≤ x.clock :=
  ⟨by decide,
   (no_job_fires_early [Env.mk [] 0 [] 5 false, Env.mk [] 6 [] 12 false]
      (FunctionScheduler.mk true [(5, 1), (9, 0)] 0) (by decide)).2⟩

/-- Instance of `preemption_by_earlier_insertion`: the loop waits on deadline
10, a call inserts job 1 with deadline 3 at clock 1 and the wait returns at
clock 1. -/
theorem preemption_by_earlier_insertion_witness :
    Ordered (FunctionScheduler.mk true [(10, 0)] 0).m_Jobs ∧
    recent_job_time (arrive (Env.mk [] 0 [Call.mk 1 2 1] 1 false).arrivals
      (FunctionScheduler.mk true [(10, 0)] 0)).m_Jobs = some 10 ∧
    (10 : Time) ≠ (Env.mk [] 0 [Call.mk 1 2 1] 1 false).now ∧
    wait_until 10 (Env.mk [] 0 [Call.mk 1 2 1] 1 false).wake = cv_status.no_timeout ∧
    body (Env.mk [] 0 [Call.mk 1 2 1] 1 false) (FunctionScheduler.mk true [(10, 0)] 0)
      = some (after (Env.mk [] 0 [Call.mk 1 2 1] 1 false)
          (FunctionScheduler.mk true [(10, 0)] 0)
          (arrive (Env.mk [] 0 [Call.mk 1 2 1] 1 false).during
            (arrive (Env.mk [] 0 [Call.mk 1 2 1] 1 false).arrivals
              (FunctionScheduler.mk true [(10, 0)] 0))).m_Jobs, []) :=
  ⟨by decide, by decide, by decide, by decide,
   (preemption_by_earlier_insertion (Env.mk [] 0 [Call.mk 1 2 1] 1 false)
      (FunctionScheduler.mk true [(10, 0)] 0) 10
      (by decide) (by decide) (by decide) (by decide)).1⟩

/-- Instance of `one_entry_removed_per_firing`: three jobs 7, 8, 9 under the
deadline 5 and three passes after the deadline. -/
theorem one_entry_removed_per_firing_witness :
    (∀ c ∈ [Call.mk 0 5 7, Call.mk 1 4 8, Call.mk 2 3 9], deadline c = 5) ∧
    [Env.mk [] 6 [] 6 false, Env.mk [] 7 [] 7 false, Env.mk [] 8 [] 8 false].length
      = [Call.mk 0 5 7, Call.mk 1 4 8, Call.mk 2 3 9].length ∧
    (∀ ev ∈ [Env.mk [] 6 [] 6 false, Env.mk [] 7 [] 7 false, Env.mk [] 8 [] 8 false],
      elapsed 5 ev) ∧
    (startScheduling 0
      [Env.mk [] 6 [] 6 false, Env.mk [] 7 [] 7 false, Env.mk [] 8 [] 8 false]
      (arrive [Call.mk 0 5 7, Call.mk 1 4 8, Call.mk 2 3 9] init)).state.m_Jobs = [] :=
  ⟨by decide, by decide, by decide,
   (one_entry_removed_per_firing 5 [Call.mk 0 5 7, Call.mk 1 4 8, Call.mk 2 3 9] 0
      [Env.mk [] 6 [] 6 false, Env.mk [] 7 [] 7 false, Env.mk [] 8 [] 8 false]
      (by decide) (by decide) (by decide)).2.1⟩

/-- C1 (batch atomicity), evaluated. Job 0 is scheduled at clock 0 with delay
2 and job 1 at clock 1 with delay 1, so both have the deadline 2, and the loop
is running; in the pass whose timed wait returns at clock 2 both jobs are
spawned, and the queue afterwards still holds job 1 under key 2: only the
first entry of the batch was removed. -/
theorem batch_left_in_queue :
    arrive [Call.mk 0 2 0, Call.mk 1 1 1] (FunctionScheduler.mk true [] 0)
      = FunctionScheduler.mk true [(2, 0), (2, 1)] 0 ∧
    body (Env.mk [] 1 [] 2 false) (FunctionScheduler.mk true [(2, 0), (2, 1)] 0)
      = some (FunctionScheduler.mk true [(2, 1)] 0, [Spawn.mk 2 2 0, Spawn.mk 2 2 1]) := by
  decide

/-- C2 (no duplicate firings), evaluated. Two calls of `run_after` (at clock
0 with delay 2, at clock 1 with delay 1) give the deadline 2 to jobs 0 and 1;
the loop is then started and runs two passes, after which the queue is empty.
The log holds three spawns: job 1 was spawned twice. -/
theorem duplicate_firing :
    (startScheduling 1 [Env.mk [] 1 [] 2 false, Env.mk [] 3 [] 3 false]
      (arrive [Call.mk 0 2 0, Call.mk 1 1 1] init)).state.m_Jobs = [] ∧
    (startScheduling 1 [Env.mk [] 1 [] 2 false, Env.mk [] 3 [] 3 false]
      (arrive [Call.mk 0 2 0, Call.mk 1 1 1] init)).log.map Spawn.job = [0, 1, 1] ∧
    (startScheduling 1 [Env.mk [] 1 [] 2 false, Env.mk [] 3 [] 3 false]
      (arrive [Call.mk 0 2 0, Call.mk 1 1 1] init)).log.length = 3 := by
  decide

/-- C5 (no job is lost), evaluated. The loop waits on the deadline 10 of job
0; at clock 9 a call of `run_after` with delay 0 inserts job 1 under key 9; the
wait returns at clock 10 and reports timeout. The pass spawns job 0 only and
removes the first entry, which is job 1: job 1 is gone without having been
spawned, and job 0 is still in the queue. -/
theorem unspawned_entry_removed :
    body (Env.mk [] 0 [Call.mk 9 0 1] 10 false) (FunctionScheduler.mk true [(10, 0)] 0)
      = some (FunctionScheduler.mk true [(10, 0)] 0, [Spawn.mk 10 10 0]) := by
  decide

/-- C8, the claim as stated fails. The loop is running, the queue holds job
0 under the future deadline 10 (the clock reads 0), and `stopScheduling` is
called while the loop is in the timed wait. The wait returns at clock 10 with
timeout and job 0 is spawned although the flag has been cleared. -/
theorem stop_during_wait_still_fires :
    body (Env.mk [] 0 [] 10 true) (FunctionScheduler.mk true [(10, 0)] 0)
      = some (FunctionScheduler.mk false [] 0, [Spawn.mk 10 10 0]) ∧
    (scheduler [Env.mk [] 0 [] 10 true] (FunctionScheduler.mk true [(10, 0)] 0)).log
      = [Spawn.mk 10 10 0] := by
  decide

/-- C8, amended. `stopScheduling` clears the running flag and leaves the
queue and the start time unchanged. From a state whose flag is cleared the
loop exits at once: it spawns nothing and changes nothing. When
`stopScheduling` is called during a pass, that pass is the last one: the run
has the spawns and the final state of that single pass, whatever passes are
described after it; the pass itself is not interrupted, it spawns what it
would spawn without the call and ends with the flag cleared. -/
theorem stop_takes_effect_at_loop_condition (s : FunctionScheduler) (ev : Env)
    (envs : List Env) :
    stopScheduling s = FunctionScheduler.mk false s.m_Jobs s.m_StartTime ∧
    scheduler envs (stopScheduling s) = Run.mk Outcome.exited (stopScheduling s) [] ∧
    (ev.stop = true →
      (scheduler (ev :: envs) s).log = (scheduler [ev] s).log ∧
      (scheduler (ev :: envs) s).state = (scheduler [ev] s).state ∧
      ∀ (st : FunctionScheduler) (sp : List Spawn), body ev s = some (st, sp) →
        st.m_IsRunning = false ∧
        body { ev with stop := false } s = some ({ st with m_IsRunning := s.m_IsRunning }, sp)) := by
  refine ⟨rfl, ?_, ?_⟩
  · cases envs <;> simp [scheduler, stopScheduling]
  · intro hstop
    have hflag : ∀ (st : FunctionScheduler) (sp : List Spawn), body ev s = some (st, sp) →
        st.m_IsRunning = false ∧
        body { ev with stop := false } s = some ({ st with m_IsRunning := s.m_IsRunning }, sp) := by
      intro st sp hb
      rw [body_eq] at hb ⊢
      simp only
      cases hq : inserts ev.arrivals s.m_Jobs with
      | nil => simp [hq] at hb
      | cons e t =>
        simp only [hq] at hb ⊢
        split at hb
        · rename_i h1
          cases hb; simp [after, hstop, h1]
        · rename_i h1
          split at hb
          · rename_i h2
            cases hb; simp [after, hstop, h1, h2]
          · rename_i h2
            cases hb; simp [after, hstop, h1, h2]
    refine ⟨?_, ?_, hflag⟩
    · unfold scheduler
      split
      · cases hb : body ev s with
        | none => rfl
        | some r =>
          obtain ⟨st, sp⟩ := r
          have hst := (hflag st sp hb).1
          simp only
          cases envs <;> simp [scheduler, hst]
      · rfl
    · unfold scheduler
      split
      · cases hb : body ev s with
        | none => rfl
        | some r =>
          obtain ⟨st, sp⟩ := r
          have hst := (hflag st sp hb).1
          simp only
          cases envs <;> simp [scheduler, hst]
      · rfl

/-- Instance of `stop_takes_effect_at_loop_condition`: `stopScheduling` is
called during the first of two described passes. -/
theorem stop_takes_effect_at_loop_condition_witness :
    (Env.mk [] 0 [] 10 true).stop = true ∧
    (scheduler (Env.mk [] 0 [] 10 true :: [Env.mk [] 11 [] 20 false])
        (FunctionScheduler.mk true [(10, 0), (20, 1)] 0)).log
      = (scheduler [Env.mk [] 0 [] 10 true]
        (FunctionScheduler.mk true [(10, 0), (20, 1)] 0)).log :=
  ⟨rfl,
   ((stop_takes_effect_at_loop_condition (FunctionScheduler.mk true [(10, 0), (20, 1)] 0)
      (Env.mk [] 0 [] 10 true) [Env.mk [] 11 [] 20 false]).2.2 rfl).1⟩

/-- C9, the claim as stated fails. The queue holds job 0 under key 5 and the
clock read at line 43 is 5: the pass spawns nothing and leaves the queue as
it is. -/
theorem deadline_now_not_fired :
    recent_job_time (FunctionScheduler.mk true [(5, 0)] 0).m_Jobs = some 5 ∧
    (Env.mk [] 5 [] 5 false).now = 5 ∧
    body (Env.mk [] 5 [] 5 false) (FunctionScheduler.mk true [(5, 0)] 0)
      = some (FunctionScheduler.mk true [(5, 0)] 0, []) := by
  decide

/-- C9, amended. When the queue found at line 40 is non-empty and its first
key equals the clock value read at line 43, the pass skips the timed wait and
the firing: it spawns nothing and removes nothing (insertions that would have
arrived during the wait are not part of the pass). When the queue is ordered,
a following pass before which nothing arrives, whose clock reading differs
from that key and whose timed wait reports timeout, spawns every entry stored
under that key. -/
theorem deadline_now_deferred (ev : Env) (s : FunctionScheduler)
    (hd : recent_job_time (arrive ev.arrivals s).m_Jobs = some ev.now) :
    body ev s = some (after ev s (arrive ev.arrivals s).m_Jobs, []) ∧
    (Ordered s.m_Jobs → ∀ ev2 : Env, ev2.arrivals = [] → ev.now ≠ ev2.now →
      wait_until ev.now ev2.wake = cv_status.timeout →
      ∃ (st2 : FunctionScheduler) (sp2 : List Spawn),
        body ev2 (after ev s (arrive ev.arrivals s).m_Jobs) = some (st2, sp2) ∧
        ∀ e ∈ (arrive ev.arrivals s).m_Jobs, e.1 = ev.now →
          Spawn.mk ev2.wake e.1 e.2 ∈ sp2) := by
  constructor
  · rw [body_eq]
    simp only [arrive_jobs] at hd ⊢
    cases hq : inserts ev.arrivals s.m_Jobs with
    | nil => simp [hq, recent_job_time] at hd
    | cons e t =>
      simp only [hq, recent_job_time, List.head?_cons, Option.map_some',
        Option.some.injEq] at hd
      simp only [hd, if_true]
  · intro hs ev2 harr hnow hw
    have hk : recent_job_time
        (arrive ev2.arrivals (after ev s (arrive ev.arrivals s).m_Jobs)).m_Jobs
          = some ev.now := by
      rw [harr]
      exact hd
    refine ⟨_, _, body_firing hk hnow hw, ?_⟩
    intro e he hkey
    have hord1 : Ordered (after ev s (arrive ev.arrivals s).m_Jobs).m_Jobs := by
      show Ordered (arrive ev.arrivals s).m_Jobs
      rw [arrive_jobs]
      exact inserts_ordered _ hs
    have hord : Ordered (arrive ev2.during
        (arrive ev2.arrivals (after ev s (arrive ev.arrivals s).m_Jobs))).m_Jobs := by
      rw [arrive_jobs, arrive_jobs]
      exact inserts_ordered _ (inserts_ordered _ hord1)
    unfold spawn_range
    refine List.mem_map.2 ⟨e, ?_, rfl⟩
    rw [mem_equal_range hord]
    refine ⟨?_, hkey⟩
    rw [arrive_jobs, arrive_jobs]
    exact mem_inserts.2 (Or.inl (mem_inserts.2 (Or.inl he)))

/-- Instance of `deadline_now_deferred`: job 0 under key 5, clock reading 5. -/
theorem deadline_now_deferred_witness :
    recent_job_time (arrive (Env.mk [] 5 [] 5 false).arrivals
      (FunctionScheduler.mk true [(5, 0)] 0)).m_Jobs = some (Env.mk [] 5 [] 5 false).now ∧
    body (Env.mk [] 5 [] 5 false) (FunctionScheduler.mk true [(5, 0)] 0)
      = some (after (Env.mk [] 5 [] 5 false) (FunctionScheduler.mk true [(5, 0)] 0)
          (arrive (Env.mk [] 5 [] 5 false).arrivals
            (FunctionScheduler.mk true [(5, 0)] 0)).m_Jobs, []) :=
  ⟨by decide,
   (deadline_now_deferred (Env.mk [] 5 [] 5 false) (FunctionScheduler.mk true [(5, 0)] 0)
      (by decide)).1⟩

end FunctionScheduler
